import Mathlib

/-!
Shallow embedding of the r2dj audio bot's core: the playlist tracker
(`src/bot/src/player/playlistv2.rs`), the playlist tree
(`src/bot/src/db/entity/playlist.rs`), the audio-graph output node
(`src/audiopipe/src/core.rs`), the player position accounting
(`src/player2x/src/ffplayer.rs`), the OPUS encoder loop
(`src/mumble/src/tasks/encoder.rs`) and the room controller
(`src/bot/src/player/mod.rs`).

Machine integers that matter are modelled as `Nat`; the `f32` samples of
the mixer are modelled as exact rationals; Rust panics (`unwrap`,
out-of-bounds indexing, `assert!`) are modelled by `Option`/`none`.
-/

namespace R2dj

/-- `db::object::playlist::NestingMode`. -/
inductive NestingMode where
  | flatten
  | roundRobin
deriving DecidableEq, Repr

/-- `db::entity::Track`, reduced to its identity; title and providers are
carried separately where a claim needs them. -/
structure Track where
  id : Nat
  providers : List Nat
deriving DecidableEq, Repr

/-- `db::entity::playlist::Content` fused with the `Playlist` it can carry:
`.playlist mode entries` stands for `Content::Playlist(Playlist { object.nesting_mode = mode, entries })`.
(The repository's `object::Playlist::nesting_mode()` accessor currently
hard-codes `Flatten`; the mode is kept as data here because
`collect_choices` matches on it.) -/
inductive Content where
  | track (t : Track)
  | playlist (mode : NestingMode) (entries : List Content)

/-- `db::entity::Playlist`: a nesting mode (from its object) plus entries. -/
structure Playlist where
  mode : NestingMode
  entries : List Content

/-- `TreePath` / `TreePathBuf`: a sequence of child indices. -/
abbrev TreePath := List Nat

mutual

/-- `PlaylistTracker::is_empty_` on one content entry: a `Track` makes the
playlist non-empty, a sub-playlist counts through recursion. -/
def isEmptyC : Content → Bool
  | .track _ => false
  | .playlist _ es => isEmptyL es

/-- `PlaylistTracker::is_empty_`: true iff no entry (recursively) holds a track. -/
def isEmptyL : List Content → Bool
  | [] => true
  | c :: cs => isEmptyC c && isEmptyL cs

end

mutual

/-- `PlaylistTracker::collect_choices` over the entries of one playlist:
`plPath` is the playlist's path, `mode` the playlist's own nesting mode,
`parentEmpty` the precomputed `is_empty_(pl)` of that same playlist (the
source re-evaluates it inside the loop on the parent `pl`, not the child
`pl1`), `idx` the enumeration index. -/
def collectGo (plPath : TreePath) (mode : NestingMode) (parentEmpty : Bool)
    (idx : Nat) : List Content → List TreePath
  | [] => []
  | c :: rest =>
    let newPath := plPath ++ [idx]
    (match c with
     | .track _ => [newPath]
     | .playlist m1 es1 =>
       match mode with
       | .flatten => collectChoices newPath m1 es1
       | .roundRobin => if !parentEmpty then [newPath] else [])
    ++ collectGo plPath mode parentEmpty (idx + 1) rest

/-- `PlaylistTracker::collect_choices` for a playlist with the given mode
and entries, pushing candidate paths in order. -/
def collectChoices (plPath : TreePath) (mode : NestingMode)
    (entries : List Content) : List TreePath :=
  collectGo plPath mode (isEmptyL entries) 0 entries

end

/-- `Playlist::get_entry` over an entry list (`self.entries`); an empty
path yields `None` as in the source. -/
def getEntry : List Content → TreePath → Option Content
  | _, [] => none
  | es, idx :: rest =>
    match es[idx]? with
    | none => none
    | some c =>
      if rest.isEmpty then some c
      else
        match c with
        | .track _ => none
        | .playlist _ es1 => getEntry es1 rest

/-- `Playlist::get_track`. -/
def getTrack (es : List Content) (p : TreePath) : Option Track :=
  match getEntry es p with
  | some (.track t) => some t
  | _ => none

/-- `playlistv2::GetTrackError`. -/
inductive GetTrackError where
  | endOfList
  | noTracks
deriving DecidableEq

/-- `playlistv2::PlaylistTracker`. The `HashMap<TreePathBuf, Vec<(u16, TreePathBuf)>>`
is modelled as an association list; `iteration : u16` as a `Nat` (its only
mutation, `restart`, wraps mod 2^16 and is modelled below). -/
structure PlaylistTracker where
  playlist : Playlist
  trackers : List (TreePath × List (Nat × TreePath))
  iteration : Nat
  random : Bool

/-- `PlaylistTracker::new`: fresh history, iteration 0, `random: true`. -/
def PlaylistTracker.new (pl : Playlist) : PlaylistTracker :=
  ⟨pl, [], 0, true⟩

/-- `PlaylistTracker::set_random`. -/
def PlaylistTracker.setRandom (t : PlaylistTracker) (r : Bool) : PlaylistTracker :=
  { t with random := r }

/-- `PlaylistTracker::restart`: `iteration.overflowing_add(1)` on a `u16`. -/
def PlaylistTracker.restart (t : PlaylistTracker) : PlaylistTracker :=
  { t with iteration := (t.iteration + 1) % 2 ^ 16 }

/-- Write-back of one `HashMap` entry (`.entry(k).or_insert(..)` then mutation). -/
def trackersSet (m : List (TreePath × List (Nat × TreePath))) (k : TreePath)
    (v : List (Nat × TreePath)) : List (TreePath × List (Nat × TreePath)) :=
  if m.any (fun p => p.1 == k) then
    m.map (fun p => if p.1 == k then (k, v) else p)
  else m ++ [(k, v)]

/-- `PlaylistTracker::insert_last_played`: if the entry is already in the
context's vector it is removed first, then `(iteration, entry)` is pushed
(the source pushes the removed path value, which equals `entry`). -/
def insertLastPlayed (t : PlaylistTracker) (ctx entry : TreePath) : PlaylistTracker :=
  let vec := (t.trackers.lookup ctx).getD []
  let vec' :=
    match vec.findIdx? (fun p => p.2 == entry) with
    | some idx => vec.eraseIdx idx ++ [(t.iteration, entry)]
    | none => vec ++ [(t.iteration, entry)]
  { t with trackers := trackersSet t.trackers ctx vec' }

/-- `floor(-log2 x)` for a rational `0 < x ≤ 1` (the `f32` computation
`(-(1.0 - pick_rel).log2()).floor()` done exactly): the largest `j` with
`x * 2^j ≤ 1`, computed as `⌊log2 ⌊x⁻¹⌋⌋`. -/
def neglog2floor (x : ℚ) : Nat :=
  Nat.log 2 ⌊x⁻¹⌋₊

/-- The upper bound of the draw: `max = unweighted + (1 - 2^-|last|)`,
from which `rand::thread_rng().gen_range(0f32..=max)` samples inclusively. -/
def selectMax (len : Nat) (last : List Nat) : ℚ :=
  ((len - last.length : Nat) : ℚ) + (1 - 1 / 2 ^ last.length)

/-- `playlistv2::select_next_random`, with the value drawn from
`rand::thread_rng().gen_range(0f32..=max)` passed in explicitly as `pick`
(a rational, standing for the exact real arithmetic). `none` models a
panic: a failed `assert!` or an out-of-bounds `last[idx]` / `.nth(..).unwrap()`. -/
def selectNextRandom (len : Nat) (last : List Nat) (pick : ℚ) : Option Nat :=
  if len = 0 then none
  else if len < last.length then none
  else
    let unweighted : Nat := len - last.length
    if pick < (unweighted : ℚ) then
      let idx := pick.floor.toNat
      ((List.range len).filter (fun el => !last.contains el))[idx]?
    else
      let pickRel := pick - (unweighted : ℚ)
      let idx := neglog2floor (1 - pickRel)
      last[idx]?

/-- `PlaylistTracker::next`, with the random draw passed in as `pick`
(used only on the shuffle branch). The outer `Option` models a panic
escaping `select_next_random` or the `available[next]` indexing. -/
def PlaylistTracker.next (self : PlaylistTracker) (pick : ℚ) :
    Option (Except GetTrackError Track × PlaylistTracker) :=
  let available := collectChoices [] self.playlist.mode self.playlist.entries
  match available with
  | [] => some (.error .noTracks, self)
  | a0 :: _ =>
    let lastPlayed := (self.trackers.lookup ([] : TreePath)).getD []
    let nextIdxOpt : Option (Option TreePath) :=
      if self.random then
        let indices := lastPlayed.filterMap
          (fun p => available.findIdx? (fun v => p.2 == v))
        match selectNextRandom available.length indices pick with
        | none => none
        | some n =>
          match available[n]? with
          | none => none
          | some p => some (some p)
      else
        some (match (lastPlayed.getLast?.filter
                      (fun q => q.1 == self.iteration)).bind
                (fun q => available.findIdx? (fun el => el == q.2)) with
              | none => some a0
              | some idx => available[idx + 1]?)
    match nextIdxOpt with
    | none => none
    | some nextIdx =>
      let self' := match nextIdx with
        | some p => insertLastPlayed self [] p
        | none => self
      some ((match nextIdx.bind (fun p => getTrack self'.playlist.entries p) with
             | some t => Except.ok t
             | none => Except.error .endOfList), self')

/-- Iterates `next` with a fixed draw, collecting the call results; `none`
if any call panics. -/
def nextN (t : PlaylistTracker) (pick : ℚ) :
    Nat → Option (List (Except GetTrackError Track) × PlaylistTracker)
  | 0 => some ([], t)
  | k + 1 =>
    match t.next pick with
    | none => none
    | some (r, t') =>
      match nextN t' pick k with
      | none => none
      | some (rs, t'') => some (r :: rs, t'')

mutual

/-- The track leaves below one entry, in tree order (the flattening the
spec calls "descendants contribute as if inlined"). -/
def leavesC : Content → List Track
  | .track t => [t]
  | .playlist _ es => leavesL es

/-- The track leaves below a list of entries, in tree order. -/
def leavesL : List Content → List Track
  | [] => []
  | c :: cs => leavesC c ++ leavesL cs

end

mutual

/-- Every playlist node below this entry has nesting mode `Flatten` (the
only mode the repository's `nesting_mode()` accessor currently returns). -/
def allFlatC : Content → Bool
  | .track _ => true
  | .playlist m es => (m == NestingMode.flatten) && allFlatL es

/-- `allFlatC` over a list of entries. -/
def allFlatL : List Content → Bool
  | [] => true
  | c :: cs => allFlatC c && allFlatL cs

end

/-- `Playlist::add_content` over the entry list: empty path appends to this
playlist (`push_content`); otherwise descend, handing the content back as
the failure value when an index is out of range or the path hits a `Track`. -/
def addContent : List Content → Content → TreePath → Except Content (List Content)
  | es, content, [] => .ok (es ++ [content])
  | es, content, idx :: rest =>
    match es[idx]? with
    | none => .error content
    | some (.track _) => .error content
    | some (.playlist m1 es1) =>
      match addContent es1 content rest with
      | .error c => .error c
      | .ok es1' => .ok (es.set idx (.playlist m1 es1'))

/-! ## Audio graph output node (`audiopipe::core`) -/

/-- A stereo frame; the `f32` samples are modelled as exact rationals. -/
abbrev Frame := ℚ × ℚ

/-- `dasp_graph::Buffer::LEN`. -/
def bufferLen : Nat := 64

/-- The `dasp::ring_buffer::Bounded<Vec<[f32; 2]>>` owned by
`OutputNodeShared`: capacity 8192 in `add_output`. `push` enqueues unless
full, in which case it hands the frame back (spec §3 interface of the
external ring). This record is the output node's entire retained state. -/
structure OutRing where
  data : List Frame
  cap : Nat
deriving DecidableEq

/-- `Bounded::push`: `Some(frame)` back iff full. -/
def OutRing.push (r : OutRing) (f : Frame) : OutRing × Option Frame :=
  if r.data.length < r.cap then (⟨r.data ++ [f], r.cap⟩, none) else (r, some f)

/-- `output[idx][0] += buffer[idx]` over one channel-0 buffer. -/
def addCh0 : List Frame → List ℚ → List Frame
  | s, [] => s
  | [], _ :: _ => []
  | f :: s, x :: xs => (f.1 + x, f.2) :: addCh0 s xs

/-- `output[idx][1] += buffer[idx]` over one channel-1 buffer. -/
def addCh1 : List Frame → List ℚ → List Frame
  | s, [] => s
  | [], _ :: _ => []
  | f :: s, x :: xs => (f.1, f.2 + x) :: addCh1 s xs

/-- One incoming edge of `OutputNode::process`: the upstream node's two
channel buffers (`input.buffers()`, asserted to have exactly 2 entries),
summed sample-wise into the scratch. -/
def mixInput (scratch : List Frame) (inp : List ℚ × List ℚ) : List Frame :=
  addCh1 (addCh0 scratch inp.1) inp.2

/-- The scratch loop of `OutputNode::process`: `let mut output =
[[0.0; 2]; Buffer::LEN];` then every incoming edge is added in. -/
def mixInputs (inputs : List (List ℚ × List ℚ)) : List Frame :=
  inputs.foldl mixInput (List.replicate bufferLen (0, 0))

/-- The push loop of `OutputNode::process`: `for el in output.iter() {
shared.buffer.push(*el); }` — the `Option` result of `push` is discarded. -/
def pushAll (r : OutRing) (fs : List Frame) : OutRing :=
  fs.foldl (fun r f => (r.push f).1) r

/-- `OutputNode::process` (`audiopipe/src/core.rs`): mix all incoming
edges into a fresh equilibrium scratch, then push the `Buffer::LEN` frames
into the output ring. -/
def outputProcess (inputs : List (List ℚ × List ℚ)) (r : OutRing) : OutRing :=
  pushAll r (mixInputs inputs)

/-- One push of the spec-posited instrumented loop: push the frame and
count it when the full ring hands it back. -/
def pushCount (acc : OutRing × Nat) (f : Frame) : OutRing × Nat :=
  match acc.1.push f with
  | (r1, none) => (r1, acc.2)
  | (r1, some _) => (r1, acc.2 + 1)

/-- Modelled from the spec: §4.2 "push the `B` resulting frames into the
output ring, incrementing an overflow counter for each frame the ring
refuses". The code's `OutputNode` keeps no such counter (its whole state
is the ring); this instrumented variant returns the counter the spec
posits, for comparison with `outputProcess`. -/
def outputProcessSpec (inputs : List (List ℚ × List ℚ)) (r : OutRing) :
    OutRing × Nat :=
  (mixInputs inputs).foldl pushCount (r, 0)

/-! ## Player position accounting (`player2x::ffplayer`) -/

/-- The fields of `ffplayer::State` that `position` reads: the stored
offset and, when playing, the `Instant` playback started.  `Duration` and
`Instant` are modelled as `Nat` time units. -/
structure PlayerClock where
  position : Nat
  playingSince : Option Nat
deriving DecidableEq

/-- Free function `position(state)` (`ffplayer.rs:190`): the stored offset
when idle, `position + (now - playing_since)` when playing. There is no
clamping against the probed duration. -/
def positionAt (st : PlayerClock) (now : Nat) : Nat :=
  match st.playingSince with
  | none => st.position
  | some t0 => st.position + (now - t0)

/-- `Player::seek` while idle: `position = pos.clamp(ZERO, duration)`. -/
def seekIdle (st : PlayerClock) (dur pos : Nat) : PlayerClock :=
  { st with position := min pos dur }

/-! ## OPUS encoder loop (`mumble::tasks::encoder`) -/

/-- One emitted voice packet: the mono PCM block it was encoded from
(standing in for the OPUS payload, which is a function of it) and the
"last in utterance" terminator flag (`is_empty` at emission time). -/
structure VoicePacket where
  pcm : List Int
  lastInUtterance : Bool
deriving DecidableEq

/-- `is_empty` for one block: no sample of `pcm_buf` differs from 0
(`if sample != 0 { is_empty = false; }`). -/
def isEmptyBlock (b : List Int) : Bool :=
  b.all (fun s => s == 0)

/-- One iteration of the encoder loop on an already-converted mono block:
returns the new `last_was_empty` and the packet sent, if any
(`if !(is_empty && last_was_empty) { .. send(Opus(.., is_empty)) }`). -/
def encStep (lastEmpty : Bool) (block : List Int) : Bool × Option VoicePacket :=
  let e := isEmptyBlock block
  (e, if !(e && lastEmpty) then some ⟨block, e⟩ else none)

/-- The encoder loop from a given `last_was_empty` state, recording per
block whether a packet was emitted. -/
def encTrace : Bool → List (List Int) → List (Option VoicePacket)
  | _, [] => []
  | lastEmpty, b :: bs =>
    (encStep lastEmpty b).2 :: encTrace (encStep lastEmpty b).1 bs

/-- The packet stream of the encoder loop; `last_was_empty` starts `true`. -/
def encPackets (blocks : List (List Int)) : List VoicePacket :=
  (encTrace true blocks).filterMap id

/-- The 10 ms block the loop builds from the pulled stereo frames:
`frame.channel(0).unwrap()` then `to_sample::<i16>().scale_amp(0.1)`; the
right channel is never read. `conv` is the exact i16
conversion-and-0.1-gain (a fixed function of the channel-0 sample). -/
def encodeBlockMono (conv : ℚ → Int) (frames : List (ℚ × ℚ)) : List Int :=
  frames.map (fun f => conv f.1)

/-- The encoder loop over a stream of stereo blocks. -/
def encoderRun (conv : ℚ → Int) (blocks : List (List (ℚ × ℚ))) : List VoicePacket :=
  encPackets (blocks.map (encodeBlockMono conv))

/-! ## Room controller (`bot::player::mod`) -/

/-- The slice of a `Player` the room claims observe: the probed length and
whether `play()` has been invoked on it (the source emits
`PlayerEvent::Playing` exactly when an idle player's `play()` runs). -/
structure PlayerM where
  length : Nat
  playing : Bool
deriving DecidableEq

/-- `player::Event` as far as the room itself sends it (`event_tx`):
`TrackChanged(track, length)` and `TrackCleared`; `PlayerEvent`s are
forwarded from the player's own channel. -/
inductive EventM where
  | trackChanged (t : Track) (len : Nat)
  | trackCleared
deriving DecidableEq

/-- External effects of `skip`: resolving a provider to a cached media
path (`TrackProvider::media_path`) and probing it (`ffprobe`, inside
`Player::new`). Paths and provider ids are abstract `Nat`s; `Except Unit`
carries the failure case. -/
structure RoomExt where
  mediaPath : Nat → Except Unit Nat
  probe : Nat → Except Unit Nat

/-- `RoomService` state the claims touch: the optional player and the
playlist tracker (held in `Shared`). -/
structure RoomSt where
  player : Option PlayerM
  tracker : PlaylistTracker

/-- `RoomService::skip`: remember whether the old player was playing,
pause and drop it, pull `playlist.next()` (whose error is discarded by
`get_next`), resolve the first provider, build a `Player`, call `play()`
only if the old one was playing, and emit `TrackChanged` — or emit
`TrackCleared` when no track came back. `none` models a panic: the
`.first().unwrap()`, `.media_path().await.unwrap()` and
`Player::new(..).unwrap()` calls, or a panic inside `next`. -/
def RoomService.skip (ext : RoomExt) (st : RoomSt) (pick : ℚ) :
    Option (RoomSt × List EventM) :=
  let playing := match st.player with
    | some p => p.playing
    | none => false
  match st.tracker.next pick with
  | none => none
  | some (res, tracker') =>
    match res with
    | .ok tr =>
      match tr.providers.head? with
      | none => none
      | some prov =>
        match ext.mediaPath prov with
        | .error _ => none
        | .ok path =>
          match ext.probe path with
          | .error _ => none
          | .ok len =>
            some ({ player := some { length := len, playing := playing },
                    tracker := tracker' },
                  [EventM.trackChanged tr len])
    | .error _ =>
      some ({ player := none, tracker := tracker' }, [EventM.trackCleared])

/-- The `Room1Message`s whose handler arms the claims cover. The
`AddPlaylist` message carries no path (the proxy signature is
`add_playlist(playlist: LPlaylist)`). -/
inductive RoomMsg where
  | play
  | pause
  | next
  | addPlaylist (pl : Playlist)

/-- One message-handling arm of `run_room`'s select loop. `Play` with no
player calls `skip`, otherwise `player.play()`; `Pause` calls
`player.pause()`; `Next` calls `skip`; the `AddPlaylist` arm only replies
(`let _ = callback.send(());`) — the playlist is dropped. -/
def runRoomStep (ext : RoomExt) (st : RoomSt) (pick : ℚ) :
    RoomMsg → Option (RoomSt × List EventM)
  | .play =>
    match st.player with
    | none => RoomService.skip ext st pick
    | some p => some ({ st with player := some { p with playing := true } }, [])
  | .pause =>
    match st.player with
    | none => some (st, [])
    | some p => some ({ st with player := some { p with playing := false } }, [])
  | .next => RoomService.skip ext st pick
  | .addPlaylist _ => some (st, [])

def histAt (avail : List TreePath) : Nat → List (TreePath × List (Nat × TreePath))
  | 0 => []
  | k + 1 => [([], (avail.take (k + 1)).map (fun p => ((0 : Nat), p)))]

def seqTrackerAt (es : List Content) (avail : List TreePath) (k : Nat) : PlaylistTracker :=
  ⟨⟨.flatten, es⟩, histAt avail k, 0, false⟩

/-- The spec's own example: root `[P1(T1,T2), P2(T3)]`, all `Flatten`. -/
def exEntries : List Content :=
  [Content.playlist .flatten [Content.track ⟨1, []⟩, Content.track ⟨2, []⟩],
   Content.playlist .flatten [Content.track ⟨3, []⟩]]

/-- A track with one provider (id 42), for the room-controller claims. -/
def exTrackP : Track := ⟨7, [42]⟩

/-- Externals that succeed: provider 42 resolves to path 5, probing path 5
gives duration 120. -/
def exExt : RoomExt := ⟨fun _ => .ok 5, fun _ => .ok 120⟩

/-- Externals whose media probe (ffprobe in `Player::new`) fails. -/
def exExtBadProbe : RoomExt := ⟨fun _ => .ok 5, fun _ => .error ()⟩

/-- A room with no player and a one-track playlist, shuffle off. -/
def exRoomSt : RoomSt :=
  ⟨none, (PlaylistTracker.new ⟨.flatten, [Content.track exTrackP]⟩).setRandom false⟩

/-! ## Supporting lemmas for the playlist tracker -/

theorem getEntry_cons_succ (c : Content) (cs : List Content) (j : Nat) (q : TreePath) :
    getEntry (c :: cs) ((j + 1) :: q) = getEntry cs (j :: q) := by
  simp only [getEntry, List.getElem?_cons_succ]

/-- On an all-`Flatten` tree, `collect_choices` enumerates exactly the
track leaves, in tree order: the `k`-th collected path resolves via
`get_track` to the `k`-th leaf. `hinv` aligns the current entry list with
the root list `es0` the paths are resolved against. -/
theorem collectGo_forall2 :
    ∀ (cs : List Content), allFlatL cs = true →
    ∀ (es0 : List Content) (base : TreePath) (idx : Nat) (pe : Bool),
    (∀ j q, getEntry es0 (base ++ (idx + j) :: q) = getEntry cs (j :: q)) →
    List.Forall₂ (fun p t => getTrack es0 p = some t)
      (collectGo base .flatten pe idx cs) (leavesL cs)
  | [], _, es0, base, idx, pe, _ => by
      simp [collectGo, leavesL]
  | .track t :: rest, hf, es0, base, idx, pe, hinv => by
      have hf' : allFlatL rest = true := by
        simp [allFlatL, allFlatC] at hf
        exact hf
      have h0 : getTrack es0 (base ++ [idx]) = some t := by
        have h := hinv 0 []
        simp only [Nat.add_zero] at h
        simp [getTrack, h, getEntry]
      have ih := collectGo_forall2 rest hf' es0 base (idx + 1) pe (fun j q => by
        have h := hinv (j + 1) q
        rw [getEntry_cons_succ] at h
        have e : idx + 1 + j = idx + (j + 1) := by omega
        rw [e]
        exact h)
      rw [show collectGo base .flatten pe idx (Content.track t :: rest) =
            (base ++ [idx]) :: collectGo base .flatten pe (idx + 1) rest from by
          simp [collectGo]]
      rw [show leavesL (Content.track t :: rest) = t :: leavesL rest from by
          simp [leavesL, leavesC]]
      exact List.Forall₂.cons h0 ih
  | .playlist m1 es1 :: rest, hf, es0, base, idx, pe, hinv => by
      have hm1 : m1 = .flatten := by
        simp [allFlatL, allFlatC] at hf
        exact hf.1.1
      have hf1 : allFlatL es1 = true := by
        simp [allFlatL, allFlatC] at hf
        exact hf.1.2
      have hf' : allFlatL rest = true := by
        simp [allFlatL, allFlatC] at hf
        exact hf.2
      have ih1 := collectGo_forall2 es1 hf1 es0 (base ++ [idx]) 0 (isEmptyL es1)
        (fun j q => by
          have h := hinv 0 (j :: q)
          simp only [Nat.add_zero] at h
          have h2 : getEntry (Content.playlist m1 es1 :: rest) (0 :: j :: q) =
              getEntry es1 (j :: q) := by
            simp [getEntry]
          rw [h2] at h
          rw [← h]
          congr 1
          simp [List.append_assoc])
      have ih2 := collectGo_forall2 rest hf' es0 base (idx + 1) pe (fun j q => by
        have h := hinv (j + 1) q
        rw [getEntry_cons_succ] at h
        have e : idx + 1 + j = idx + (j + 1) := by omega
        rw [e]
        exact h)
      rw [show collectGo base .flatten pe idx (Content.playlist m1 es1 :: rest) =
            collectGo (base ++ [idx]) .flatten (isEmptyL es1) 0 es1
              ++ collectGo base .flatten pe (idx + 1) rest from by
          simp [collectGo, collectChoices, hm1]]
      rw [show leavesL (Content.playlist m1 es1 :: rest) =
            leavesL es1 ++ leavesL rest from by simp [leavesL, leavesC]]
      exact List.rel_append ih1 ih2

/-- Every path `collect_choices` pushes extends the base path by a first
index at least `idx`. -/
theorem collectGo_shape :
    ∀ (cs : List Content) (base : TreePath) (m : NestingMode) (pe : Bool)
      (idx : Nat) (p : TreePath), p ∈ collectGo base m pe idx cs →
      ∃ j q, p = base ++ j :: q ∧ idx ≤ j
  | [], base, m, pe, idx, p => by simp [collectGo]
  | c :: rest, base, m, pe, idx, p => by
      intro hp
      have hrest : p ∈ collectGo base m pe (idx + 1) rest →
          ∃ j q, p = base ++ j :: q ∧ idx ≤ j := by
        intro hp'
        obtain ⟨j, q, hpe, hj⟩ := collectGo_shape rest base m pe (idx + 1) p hp'
        exact ⟨j, q, hpe, by omega⟩
      cases c with
      | track t =>
        simp [collectGo] at hp
        rcases hp with hp | hp
        · exact ⟨idx, [], by simp [hp], Nat.le_refl idx⟩
        · exact hrest hp
      | playlist m1 es1 =>
        cases m with
        | flatten =>
          simp only [collectGo, collectChoices, List.mem_append] at hp
          rcases hp with hp | hp
          · obtain ⟨j, q, hpe, _⟩ := collectGo_shape es1 (base ++ [idx]) m1
              (isEmptyL es1) 0 p hp
            exact ⟨idx, j :: q, by simp [hpe], Nat.le_refl idx⟩
          · exact hrest hp
        | roundRobin =>
          cases pe with
          | true =>
            simp [collectGo] at hp
            exact hrest hp
          | false =>
            simp [collectGo] at hp
            rcases hp with hp | hp
            · exact ⟨idx, [], by simp [hp], Nat.le_refl idx⟩
            · exact hrest hp

/-- The candidate paths `collect_choices` produces are pairwise distinct. -/
theorem collectGo_nodup :
    ∀ (cs : List Content) (base : TreePath) (m : NestingMode) (pe : Bool)
      (idx : Nat), (collectGo base m pe idx cs).Nodup
  | [], base, m, pe, idx => by simp [collectGo]
  | c :: rest, base, m, pe, idx => by
      have hdisj : ∀ p, (∃ q, p = base ++ idx :: q) →
          p ∈ collectGo base m pe (idx + 1) rest → False := by
        rintro p ⟨q1, hq1⟩ hp2
        obtain ⟨j, q2, hq2, hj⟩ := collectGo_shape rest base m pe (idx + 1) p hp2
        rw [hq1] at hq2
        have := List.append_cancel_left hq2
        simp only [List.cons.injEq] at this
        omega
      have hrest := collectGo_nodup rest base m pe (idx + 1)
      cases c with
      | track t =>
        rw [show collectGo base m pe idx (Content.track t :: rest) =
              [base ++ [idx]] ++ collectGo base m pe (idx + 1) rest from by
            simp [collectGo]]
        refine List.Nodup.append (by simp) hrest ?_
        intro p hp1 hp2
        simp at hp1
        exact hdisj p ⟨[], by simp [hp1]⟩ hp2
      | playlist m1 es1 =>
        cases m with
        | flatten =>
          rw [show collectGo base .flatten pe idx (Content.playlist m1 es1 :: rest) =
                collectGo (base ++ [idx]) m1 (isEmptyL es1) 0 es1
                  ++ collectGo base .flatten pe (idx + 1) rest from by
              simp [collectGo, collectChoices]]
          refine List.Nodup.append
            (collectGo_nodup es1 (base ++ [idx]) m1 (isEmptyL es1) 0) hrest ?_
          intro p hp1 hp2
          obtain ⟨j, q, hpe, _⟩ := collectGo_shape es1 (base ++ [idx]) m1
            (isEmptyL es1) 0 p hp1
          exact hdisj p ⟨j :: q, by simp [hpe]⟩ hp2
        | roundRobin =>
          cases pe with
          | true =>
            rw [show collectGo base .roundRobin true idx (Content.playlist m1 es1 :: rest) =
                  [] ++ collectGo base .roundRobin true (idx + 1) rest from by
                simp [collectGo]]
            simpa using hrest
          | false =>
            rw [show collectGo base .roundRobin false idx (Content.playlist m1 es1 :: rest) =
                  [base ++ [idx]] ++ collectGo base .roundRobin false (idx + 1) rest from by
                simp [collectGo]]
            refine List.Nodup.append (by simp) hrest ?_
            intro p hp1 hp2
            simp at hp1
            exact hdisj p ⟨[], by simp [hp1]⟩ hp2

/-- `collectChoices` variant of `collectGo_nodup`. -/
theorem collectChoices_nodup (cs : List Content) (base : TreePath)
    (m : NestingMode) : (collectChoices base m cs).Nodup := by
  rw [collectChoices]
  exact collectGo_nodup cs base m (isEmptyL cs) 0

/-- `position(|el| el == l[i])` finds exactly `i` on a duplicate-free list. -/
theorem findIdx?_beq_of_nodup {α : Type _} [BEq α] [LawfulBEq α] :
    ∀ (l : List α), l.Nodup → ∀ (i : Nat), (hi : i < l.length) →
      l.findIdx? (fun el => el == l[i]) = some i
  | [], _, i, hi => by simp at hi
  | a :: t, hnd, 0, hi => by simp
  | a :: t, hnd, i + 1, hi => by
      have hi' : i < t.length := by simpa using hi
      simp only [List.getElem_cons_succ]
      have hmem : t[i] ∈ t := List.getElem_mem hi'
      have hne : (a == t[i]) = false := by
        simp only [List.nodup_cons] at hnd
        simp only [beq_eq_false_iff_ne, ne_eq]
        intro h
        exact hnd.1 (h ▸ hmem)
      have ih := findIdx?_beq_of_nodup t
        (by simp only [List.nodup_cons] at hnd; exact hnd.2) i hi'
      simp only [List.findIdx?_cons, hne, if_false]
      rw [List.findIdx?_succ, ih]
      rfl


theorem getElem_not_mem_take {α : Type _} (l : List α) (hnd : l.Nodup) (k : Nat)
    (hk : k < l.length) : l[k] ∉ l.take k := by
  intro hmem
  have hsplit := List.take_append_drop k l
  rw [← hsplit] at hnd
  rw [List.nodup_append] at hnd
  have hdrop : l[k] ∈ l.drop k := by
    rw [List.drop_eq_getElem_cons hk]
    exact List.mem_cons_self _ _
  exact hnd.2.2 hmem hdrop

theorem seqTracker_next_lt (es : List Content) (avail : List TreePath)
    (ha : collectChoices [] .flatten es = avail) (hnd : avail.Nodup)
    (k : Nat) (hlt : k < avail.length) (pick : ℚ) :
    (seqTrackerAt es avail k).next pick =
      some ((match getTrack es avail[k] with
             | some t => Except.ok t
             | none => Except.error GetTrackError.endOfList),
            seqTrackerAt es avail (k + 1)) := by
  have hfindk : avail.findIdx? (fun el => el == avail[k]) = some k :=
    findIdx?_beq_of_nodup avail hnd k hlt
  have hnone : ((avail.take k).map (fun p => ((0 : Nat), p))).findIdx?
      (fun p => p.2 == avail[k]) = none := by
    rw [List.findIdx?_eq_none_iff]
    intro x hx
    rcases List.mem_map.mp hx with ⟨p, hp, rfl⟩
    simp only [beq_eq_false_iff_ne, ne_eq]
    intro h
    exact getElem_not_mem_take avail hnd k hlt (h ▸ hp)
  have htake : (avail.take k).map (fun p => ((0 : Nat), p)) ++ [((0 : Nat), avail[k])] =
      (avail.take (k + 1)).map (fun p => ((0 : Nat), p)) := by
    rw [List.take_succ, List.getElem?_eq_getElem hlt, List.map_append]
    rfl
  obtain ⟨a0, tail, rfl⟩ : ∃ a0 tail, avail = a0 :: tail := by
    cases avail with
    | nil => simp at hlt
    | cons a0 tail => exact ⟨a0, tail, rfl⟩
  cases k with
  | zero =>
    simp only [seqTrackerAt, histAt, PlaylistTracker.next, ha]
    simp only [List.lookup_nil, Option.getD_none, List.getLast?_nil, Option.filter_none,
      Option.none_bind, Bool.false_eq_true, if_false]
    simp only [insertLastPlayed, trackersSet, List.lookup_nil, Option.getD_none,
      List.findIdx?_nil, List.any_nil, Bool.false_eq_true, if_false, List.nil_append]
    cases hgt : getTrack es (a0 :: tail)[0] <;>
      simp_all [List.take_succ, Option.some_bind, List.getElem_cons_zero]
  | succ j =>
    have hjlt : j < (a0 :: tail).length := by
      simp only [List.length_cons] at hlt ⊢
      omega
    have hfindj : (a0 :: tail).findIdx? (fun el => el == (a0 :: tail)[j]) = some j :=
      findIdx?_beq_of_nodup (a0 :: tail) hnd j hjlt
    simp only [seqTrackerAt, histAt, PlaylistTracker.next, ha]
    simp only [List.lookup_cons, beq_self_eq_true, Option.getD_some, Bool.false_eq_true,
      if_false]
    rw [List.getLast?_map]
    rw [List.getLast?_take]
    simp only [Nat.add_eq_zero, and_false, if_false, Nat.add_sub_cancel, one_ne_zero,
      List.getElem?_eq_getElem hjlt, Option.or_some, Option.map_some']
    simp only [Option.filter_some, beq_self_eq_true, eq_self_iff_true, if_true,
      Option.some_bind, hfindj]
    simp only [List.getElem?_eq_getElem hlt]
    simp only [insertLastPlayed, trackersSet, List.lookup_cons, beq_self_eq_true,
      Option.getD_some, hnone, htake, List.any_cons, Bool.or_eq_true, eq_self_iff_true,
      if_true]
    cases hgt : getTrack es (a0 :: tail)[j + 1] <;>
      simp_all [Option.some_bind]

theorem seqTracker_next_end (es : List Content) (avail : List TreePath)
    (ha : collectChoices [] .flatten es = avail) (hnd : avail.Nodup)
    (hpos : 0 < avail.length) (pick : ℚ) :
    (seqTrackerAt es avail avail.length).next pick =
      some (Except.error GetTrackError.endOfList, seqTrackerAt es avail avail.length) := by
  obtain ⟨a0, tail, rfl⟩ : ∃ a0 tail, avail = a0 :: tail := by
    cases avail with
    | nil => simp at hpos
    | cons a0 tail => exact ⟨a0, tail, rfl⟩
  have hjlt : tail.length < (a0 :: tail).length := by simp
  have hfindj : (a0 :: tail).findIdx? (fun el => el == (a0 :: tail)[tail.length]) =
      some tail.length :=
    findIdx?_beq_of_nodup (a0 :: tail) hnd tail.length hjlt
  have hnone2 : (a0 :: tail)[tail.length + 1]? = none := by
    rw [List.getElem?_eq_none]
    simp
  simp only [List.length_cons, seqTrackerAt, histAt, PlaylistTracker.next, ha]
  simp only [List.lookup_cons, beq_self_eq_true, eq_self_iff_true, if_true,
    Option.getD_some, Bool.false_eq_true, if_false]
  rw [List.getLast?_map]
  rw [List.getLast?_take]
  simp only [Nat.add_eq_zero, and_false, if_false, Nat.add_sub_cancel, one_ne_zero,
    List.getElem?_eq_getElem hjlt, Option.or_some, Option.map_some']
  simp only [Option.filter_some, beq_self_eq_true, eq_self_iff_true, if_true,
    Option.some_bind, hfindj]
  simp only [hnone2, Option.none_bind]

theorem nextN_seq (es : List Content) (avail : List TreePath)
    (ha : collectChoices [] .flatten es = avail) (hnd : avail.Nodup)
    (hfa : List.Forall₂ (fun p t => getTrack es p = some t) avail (leavesL es))
    (pick : ℚ) :
    ∀ (i k : Nat), k + i ≤ avail.length →
    nextN (seqTrackerAt es avail k) pick i =
      some ((((leavesL es).drop k).take i).map Except.ok, seqTrackerAt es avail (k + i))
  | 0, k, hk => by simp [nextN]
  | i + 1, k, hk => by
      have hlt : k < avail.length := by omega
      have hlen := hfa.length_eq
      have hltl : k < (leavesL es).length := by omega
      have hgt : getTrack es avail[k] = some (leavesL es)[k] := by
        have h := hfa.get (i := k) hlt hltl
        simpa using h
      have ih := nextN_seq es avail ha hnd hfa pick i (k + 1) (by omega)
      simp only [nextN]
      rw [seqTracker_next_lt es avail ha hnd k hlt pick, hgt]
      simp only [ih]
      have he : k + 1 + i = k + (i + 1) := by omega
      rw [he]
      have hk2 : k < ((leavesL es).map
          (Except.ok : Track → Except GetTrackError Track)).length := by
        simpa using hltl
      simp only [Option.some.injEq, Prod.mk.injEq]
      refine ⟨?_, by trivial⟩
      simp only [List.map_take, List.map_drop]
      rw [List.drop_eq_getElem_cons hk2, List.take_succ_cons, List.getElem_map]

theorem nextN_seq_end (es : List Content) (avail : List TreePath)
    (ha : collectChoices [] .flatten es = avail) (hnd : avail.Nodup)
    (hpos : 0 < avail.length) (pick : ℚ) :
    ∀ (m : Nat), nextN (seqTrackerAt es avail avail.length) pick m =
      some (List.replicate m (Except.error GetTrackError.endOfList),
            seqTrackerAt es avail avail.length)
  | 0 => by simp [nextN]
  | m + 1 => by
      simp only [nextN]
      rw [seqTracker_next_end es avail ha hnd hpos pick]
      simp only [nextN_seq_end es avail ha hnd hpos pick m]
      simp [List.replicate_succ]

theorem nextN_add (t : PlaylistTracker) (pick : ℚ) :
    ∀ (a b : Nat) , nextN t pick (a + b) =
      match nextN t pick a with
      | none => none
      | some (rs, t1) =>
        match nextN t1 pick b with
        | none => none
        | some (rs2, t2) => some (rs ++ rs2, t2)
  | 0, b => by
      cases h : nextN t pick b with
      | none => simp [nextN, h]
      | some r => simp [nextN, h]
  | a + 1, b => by
      have he : a + 1 + b = (a + b) + 1 := by omega
      rw [he]
      simp only [nextN]
      cases hn : t.next pick with
      | none => rfl
      | some rt =>
        obtain ⟨r, t1⟩ := rt
        simp only [nextN_add t1 pick a b]
        cases h1 : nextN t1 pick a with
        | none => rfl
        | some rs1 =>
          obtain ⟨rs, t2⟩ := rs1
          cases h2 : nextN t2 pick b with
          | none => simp [h2]
          | some rs2 => simp [h2]

/-- C1 (amended): with shuffle off, a fresh tracker over a non-empty
all-`Flatten` playlist yields, over the first `n = #leaves` calls, every
track leaf exactly once in tree order; every further call returns `End`
(rather than wrapping around to the first element), and `next()` never
changes the `iteration` counter. -/
theorem c1_sequential_traversal_amended (es : List Content) (hf : allFlatL es = true)
    (hne : leavesL es ≠ []) (pick : ℚ) (m : Nat) :
    (nextN ((PlaylistTracker.new ⟨.flatten, es⟩).setRandom false) pick
        ((leavesL es).length + m)).map (fun r => (r.1, r.2.iteration)) =
      some ((leavesL es).map Except.ok ++
            List.replicate m (Except.error GetTrackError.endOfList), 0) := by
  have hfa : List.Forall₂ (fun p t => getTrack es p = some t)
      (collectChoices [] .flatten es) (leavesL es) := by
    rw [collectChoices]
    exact collectGo_forall2 es hf es [] 0 (isEmptyL es) (fun j q => by simp)
  have hnd := collectChoices_nodup es [] .flatten
  have hlen : (collectChoices [] .flatten es).length = (leavesL es).length :=
    hfa.length_eq
  have hpos : 0 < (collectChoices [] .flatten es).length := by
    rw [hlen]
    cases h : leavesL es with
    | nil => exact absurd h hne
    | cons x xs => simp [h]
  have ht0 : (PlaylistTracker.new ⟨.flatten, es⟩).setRandom false =
      seqTrackerAt es (collectChoices [] .flatten es) 0 := rfl
  rw [ht0, ← hlen, nextN_add]
  rw [nextN_seq es (collectChoices [] .flatten es) rfl hnd hfa pick
    (collectChoices [] .flatten es).length 0 (by omega)]
  simp only [List.drop_zero, hlen, List.take_length, Nat.zero_add]
  have hend := nextN_seq_end es (collectChoices [] .flatten es) rfl hnd hpos pick m
  rw [hlen] at hend
  simp only [hend]
  simp [seqTrackerAt]

/-- C1 (witness): the amended theorem instantiated on the example playlist
with three further calls: the six results are `T1, T2, T3, End, End, End`
and the iteration counter stays 0. -/
theorem c1_sequential_traversal_witness :
    (nextN ((PlaylistTracker.new ⟨.flatten, exEntries⟩).setRandom false) 0 (3 + 3)).map
        (fun r => (r.1, r.2.iteration)) =
      some ([Except.ok ⟨1, []⟩, Except.ok ⟨2, []⟩, Except.ok ⟨3, []⟩,
             Except.error GetTrackError.endOfList, Except.error GetTrackError.endOfList,
             Except.error GetTrackError.endOfList], 0) := by
  have h := c1_sequential_traversal_amended exEntries
    (by simp [exEntries, allFlatL, allFlatC])
    (by simp [exEntries, leavesL, leavesC]) 0 3
  simpa [exEntries, leavesL, leavesC] using h

/-- C1 (counterexample): on the spec's example playlist (claimed to yield
`T1, T2, T3, T1, T2, T3` over six calls), the fourth and later calls
return `End`: `next()` does not wrap around to the first element. -/
theorem c1_cyclic_repeat_counterexample :
    (nextN ((PlaylistTracker.new ⟨.flatten, exEntries⟩).setRandom false) 0 6).map
        (fun r => r.1) =
      some [Except.ok ⟨1, []⟩, Except.ok ⟨2, []⟩, Except.ok ⟨3, []⟩,
            Except.error GetTrackError.endOfList, Except.error GetTrackError.endOfList,
            Except.error GetTrackError.endOfList] ∧
    (nextN ((PlaylistTracker.new ⟨.flatten, exEntries⟩).setRandom false) 0 6).map
        (fun r => r.1) ≠
      some [Except.ok ⟨1, []⟩, Except.ok ⟨2, []⟩, Except.ok ⟨3, []⟩,
            Except.ok ⟨1, []⟩, Except.ok ⟨2, []⟩, Except.ok ⟨3, []⟩] := by
  constructor
  · simp +decide [nextN, PlaylistTracker.next, PlaylistTracker.new,
      PlaylistTracker.setRandom, exEntries, collectChoices, collectGo, isEmptyL,
      isEmptyC, insertLastPlayed, trackersSet, getTrack, getEntry, Option.filter,
      List.lookup, List.findIdx?]
  · simp +decide [nextN, PlaylistTracker.next, PlaylistTracker.new,
      PlaylistTracker.setRandom, exEntries, collectChoices, collectGo, isEmptyL,
      isEmptyC, insertLastPlayed, trackersSet, getTrack, getEntry, Option.filter,
      List.lookup, List.findIdx?]

/-- C4 (failing input): `collect_choices` on a RoundRobin playlist
`[Track T1, empty sub-playlist Q]` pushes the empty sub-playlist's path
`[1]` as a choice — the pruning check `is_empty_(pl)` tests the parent
playlist (which contains `T1`) instead of the child `pl1`. -/
theorem c4_roundrobin_prune_failing :
    collectChoices [] .roundRobin
        [Content.track ⟨1, []⟩, Content.playlist .flatten []] = [[0], [1]] ∧
    isEmptyC (Content.playlist .flatten []) = true := by
  constructor
  · simp [collectChoices, collectGo, isEmptyL, isEmptyC]
  · simp [isEmptyC, isEmptyL]

/-- C5 (failing input): a `Play` message to a room with no player runs
`skip`, which resolves the track, builds the player and emits
`TrackChanged` — but captures `playing = false` from the absent old player
and therefore never calls `play()` on the new one (`playing := false`), so
no `Playing` event follows. -/
theorem c5_play_no_playback_failing :
    runRoomStep exExt exRoomSt 0 .play =
      some (⟨some ⟨120, false⟩,
             ⟨⟨.flatten, [Content.track exTrackP]⟩, [([], [(0, [0])])], 0, false⟩⟩,
            [EventM.trackChanged exTrackP 120]) := by
  simp +decide [runRoomStep, RoomService.skip, exRoomSt, exExt, exTrackP,
    PlaylistTracker.next, PlaylistTracker.new, PlaylistTracker.setRandom,
    collectChoices, collectGo, isEmptyL, isEmptyC, insertLastPlayed, trackersSet,
    getTrack, getEntry, Option.filter, List.lookup, List.findIdx?]

/-- C8 (failing input): when the media probe fails during `skip`, the room
task panics (`Player::new(path, out).unwrap()`) instead of skipping the
track with an event — modelled as `none`. -/
theorem c8_probe_error_panics_failing :
    runRoomStep exExtBadProbe exRoomSt 0 .play = none := by
  simp +decide [runRoomStep, RoomService.skip, exRoomSt, exExtBadProbe, exTrackP,
    PlaylistTracker.next, PlaylistTracker.new, PlaylistTracker.setRandom,
    collectChoices, collectGo, isEmptyL, isEmptyC, insertLastPlayed, trackersSet,
    getTrack, getEntry, Option.filter, List.lookup, List.findIdx?]

/-- C9 (failing input): the `AddPlaylist` handler arm replies success and
drops the playlist — the room state is returned unchanged for every state
and payload, while `Playlist::add_content` (which the arm never calls)
would have inserted it, e.g. under path `[0]` of the example playlist. -/
theorem c9_addplaylist_noop_failing :
    (∀ (ext : RoomExt) (st : RoomSt) (pick : ℚ) (pl : Playlist),
      runRoomStep ext st pick (.addPlaylist pl) = some (st, [])) ∧
    addContent exEntries (Content.playlist .flatten []) [0] =
      Except.ok
        [Content.playlist .flatten
          [Content.track ⟨1, []⟩, Content.track ⟨2, []⟩, Content.playlist .flatten []],
         Content.playlist .flatten [Content.track ⟨3, []⟩]] := by
  constructor
  · intro ext st pick pl
    rfl
  · simp [addContent, exEntries]

/-- C6 (amended): while playing, `position` equals the stored offset plus
the wall-clock time since `playing_since` — with no clamping against the
probed duration — and is monotonically non-decreasing in `now`; while
idle it is the stored offset, independent of `now`. -/
theorem c6_position_amended :
    (∀ (st : PlayerClock) (t0 now now' : Nat), st.playingSince = some t0 →
      t0 ≤ now → now ≤ now' →
      positionAt st now = st.position + (now - t0) ∧
      positionAt st now ≤ positionAt st now') ∧
    (∀ (st : PlayerClock) (a b : Nat), st.playingSince = none →
      positionAt st a = positionAt st b) := by
  constructor
  · intro st t0 now now' hp h0 h
    constructor
    · simp [positionAt, hp]
    · simp only [positionAt, hp]
      omega
  · intro st a b hp
    simp [positionAt, hp]

/-- C6 (witness): a player that started at instant 2 with offset 5, read
at instants 10 and 12. -/
theorem c6_position_witness :
    positionAt ⟨5, some 2⟩ 10 = 5 + (10 - 2) ∧
    positionAt ⟨5, some 2⟩ 10 ≤ positionAt ⟨5, some 2⟩ 12 :=
  c6_position_amended.1 ⟨5, some 2⟩ 2 10 12 rfl (by decide) (by decide)

/-- C6 (counterexample): with probed length 10, offset 5 and 100 time
units elapsed, `position` returns 105 — it is not clamped to `length`. -/
theorem c6_position_clamp_counterexample :
    ¬ positionAt ⟨5, some 0⟩ 100 ≤ 10 := by decide

/-- C10: the encoder reads only channel 0 of every pulled frame, so two
block streams that agree on the left channel produce identical packet
streams, whatever the right channel holds. -/
theorem c10_encoder_channel0_noninterference (conv : ℚ → Int)
    (b1 b2 : List (List (ℚ × ℚ)))
    (h : b1.map (fun bl => bl.map Prod.fst) = b2.map (fun bl => bl.map Prod.fst)) :
    encoderRun conv b1 = encoderRun conv b2 := by
  have hm : ∀ b : List (List (ℚ × ℚ)),
      b.map (encodeBlockMono conv) =
        (b.map (fun bl => bl.map Prod.fst)).map (fun bl => bl.map conv) := by
    intro b
    simp [encodeBlockMono, List.map_map, Function.comp]
  unfold encoderRun
  rw [hm b1, hm b2, h]

/-- C10 (witness): one block whose right channel differs (5 vs -3). -/
theorem c10_encoder_channel0_witness :
    encoderRun (fun q => q.floor) [[((1 : ℚ), (5 : ℚ))]] =
      encoderRun (fun q => q.floor) [[((1 : ℚ), (-3 : ℚ))]] :=
  c10_encoder_channel0_noninterference (fun q => q.floor) _ _ (by decide)


theorem encTrace_getElem? :
    ∀ (blocks : List (List Int)) (b0 : Bool) (i : Nat), (hi : i < blocks.length) →
    (encTrace b0 blocks)[i]? =
      some (if isEmptyBlock blocks[i] &&
              (if i = 0 then b0 else isEmptyBlock blocks[i - 1])
            then none
            else some ⟨blocks[i], isEmptyBlock blocks[i]⟩)
  | [], b0, i, hi => by simp at hi
  | b :: bs, b0, 0, hi => by
      simp only [encTrace, encStep, List.getElem?_cons_zero, List.getElem_cons_zero,
        if_pos rfl]
      by_cases he : (isEmptyBlock b && b0) = true
      · simp [he]
      · simp [he]
  | b :: bs, b0, i + 1, hi => by
      have hi' : i < bs.length := by simpa using hi
      have ih := encTrace_getElem? bs (isEmptyBlock b) i hi'
      have hfst : (encStep b0 b).1 = isEmptyBlock b := by simp [encStep]
      simp only [encTrace, List.getElem?_cons_succ, List.getElem_cons_succ]
      rw [hfst, ih]
      cases i with
      | zero => simp
      | succ j => simp

theorem encChain :
    ∀ (blocks : List (List Int)) (b0 : Bool),
    ((encTrace b0 blocks).filterMap id).Chain'
      (fun p q => ¬(p.lastInUtterance = true ∧ q.lastInUtterance = true)) ∧
    (b0 = true → ∀ q, ((encTrace b0 blocks).filterMap id).head? = some q →
      q.lastInUtterance = false)
  | [], b0 => ⟨by simp [encTrace], by simp [encTrace]⟩
  | b :: bs, b0 => by
      obtain ⟨ihc, ihh⟩ := encChain bs (isEmptyBlock b)
      by_cases he : isEmptyBlock b = true
      · by_cases hb0 : b0 = true
        · refine ⟨?_, ?_⟩
          · simpa [encTrace, encStep, he, hb0] using ihc
          · intro _ q hq
            rw [show (encTrace b0 (b :: bs)).filterMap id =
                  (encTrace (isEmptyBlock b) bs).filterMap id from by
                simp [encTrace, encStep, he, hb0]] at hq
            exact ihh (by rw [he]) q hq
        · have hstep : encStep b0 b = (true, some ⟨b, true⟩) := by
            simp [encStep, he, Bool.eq_false_iff.mpr hb0]
          refine ⟨?_, ?_⟩
          · rw [show (encTrace b0 (b :: bs)).filterMap id =
                  (⟨b, true⟩ : VoicePacket) :: (encTrace (isEmptyBlock b) bs).filterMap id
                from by simp [encTrace, hstep, he]]
            rw [List.chain'_cons']
            refine ⟨?_, ihc⟩
            intro q hq
            have hfalse : q.lastInUtterance = false :=
              ihh (by rw [he]) q (by simpa using hq)
            simp [hfalse]
          · intro hb0' _ _
            exact absurd hb0' hb0
      · have he' : isEmptyBlock b = false := Bool.eq_false_iff.mpr he
        have hstep : encStep b0 b = (false, some ⟨b, false⟩) := by
          simp [encStep, he']
        refine ⟨?_, ?_⟩
        · rw [show (encTrace b0 (b :: bs)).filterMap id =
                (⟨b, false⟩ : VoicePacket) :: (encTrace (isEmptyBlock b) bs).filterMap id
              from by simp [encTrace, hstep, he']]
          rw [List.chain'_cons']
          refine ⟨?_, ihc⟩
          intro q _
          simp
        · intro _ q hq
          rw [show (encTrace b0 (b :: bs)).filterMap id =
                (⟨b, false⟩ : VoicePacket) :: (encTrace (isEmptyBlock b) bs).filterMap id
              from by simp [encTrace, hstep, he']] at hq
          simp only [List.head?_cons, Option.some.injEq] at hq
          rw [← hq]

/-- C7: per block of the encoder loop — an all-equilibrium block whose
predecessor was also empty (or that starts the stream, since
`last_was_empty` is initialised `true`) is skipped; the first empty block
after a non-empty one is emitted with the terminator flag `true`; every
non-empty block is emitted with the flag `false`; and the emitted packet
stream never holds two consecutive silence packets. -/
theorem c7_encoder_silence_suppression :
    (∀ (blocks : List (List Int)) (i : Nat), (hi : i < blocks.length) → 0 < i →
      isEmptyBlock blocks[i] = true → isEmptyBlock blocks[i - 1] = true →
      (encTrace true blocks)[i]? = some none) ∧
    (∀ (blocks : List (List Int)) (i : Nat), (hi : i < blocks.length) → 0 < i →
      isEmptyBlock blocks[i] = true → isEmptyBlock blocks[i - 1] = false →
      (encTrace true blocks)[i]? = some (some ⟨blocks[i], true⟩)) ∧
    (∀ (blocks : List (List Int)) (i : Nat), (hi : i < blocks.length) →
      isEmptyBlock blocks[i] = false →
      (encTrace true blocks)[i]? = some (some ⟨blocks[i], false⟩)) ∧
    (∀ blocks : List (List Int),
      (encPackets blocks).Chain'
        (fun p q => ¬(p.lastInUtterance = true ∧ q.lastInUtterance = true))) := by
  refine ⟨?_, ?_, ?_, ?_⟩
  · intro blocks i hi h0 he hprev
    rw [encTrace_getElem? blocks true i hi]
    have : i ≠ 0 := by omega
    simp [he, hprev, this]
  · intro blocks i hi h0 he hprev
    rw [encTrace_getElem? blocks true i hi]
    have : i ≠ 0 := by omega
    simp [he, hprev, this]
  · intro blocks i hi he
    rw [encTrace_getElem? blocks true i hi]
    simp [he]
  · intro blocks
    exact (encChain blocks true).1

/-- C7 (witness): stream `[1], [0], [0]`: the non-empty first block is
emitted with flag `false`, the first silent block is emitted with the
terminator flag `true`, the second consecutive silent block is skipped. -/
theorem c7_encoder_silence_suppression_witness :
    (encTrace true [[1], [0], [0]])[0]? = some (some ⟨[1], false⟩) ∧
    (encTrace true [[1], [0], [0]])[1]? = some (some ⟨[0], true⟩) ∧
    (encTrace true [[1], [0], [0]])[2]? = some none := by
  refine ⟨?_, ?_, ?_⟩
  · have h := c7_encoder_silence_suppression.2.2.1 [[1], [0], [0]] 0 (by decide)
      (by decide)
    simpa using h
  · have h := c7_encoder_silence_suppression.2.1 [[1], [0], [0]] 1 (by decide)
      (by decide) (by decide) (by decide)
    simpa using h
  · have h := c7_encoder_silence_suppression.1 [[1], [0], [0]] 2 (by decide)
      (by decide) (by decide) (by decide)
    simpa using h


theorem addCh0_length : ∀ (s : List Frame) (xs : List ℚ), (addCh0 s xs).length = s.length
  | s, [] => by simp [addCh0]
  | [], _ :: _ => by simp [addCh0]
  | f :: s, x :: xs => by simp [addCh0, addCh0_length s xs]

theorem addCh1_length : ∀ (s : List Frame) (xs : List ℚ), (addCh1 s xs).length = s.length
  | s, [] => by simp [addCh1]
  | [], _ :: _ => by simp [addCh1]
  | f :: s, x :: xs => by simp [addCh1, addCh1_length s xs]

theorem addCh0_getD : ∀ (s : List Frame) (xs : List ℚ), xs.length = s.length →
    ∀ (i : Nat), i < s.length →
    (addCh0 s xs).getD i (0, 0) =
      ((s.getD i (0, 0)).1 + xs.getD i 0, (s.getD i (0, 0)).2)
  | [], [], _, i, hi => by simp at hi
  | [], x :: xs, h, i, hi => by simp at hi
  | f :: s, [], h, i, hi => by simp at h
  | f :: s, x :: xs, h, 0, hi => by simp [addCh0]
  | f :: s, x :: xs, h, i + 1, hi => by
      have ih := addCh0_getD s xs (by simpa using h) i (by simpa using hi)
      simpa [addCh0] using ih

theorem addCh1_getD : ∀ (s : List Frame) (xs : List ℚ), xs.length = s.length →
    ∀ (i : Nat), i < s.length →
    (addCh1 s xs).getD i (0, 0) =
      ((s.getD i (0, 0)).1, (s.getD i (0, 0)).2 + xs.getD i 0)
  | [], [], _, i, hi => by simp at hi
  | [], x :: xs, h, i, hi => by simp at hi
  | f :: s, [], h, i, hi => by simp at h
  | f :: s, x :: xs, h, 0, hi => by simp [addCh1]
  | f :: s, x :: xs, h, i + 1, hi => by
      have ih := addCh1_getD s xs (by simpa using h) i (by simpa using hi)
      simpa [addCh1] using ih

theorem mixInput_length (s : List Frame) (inp : List ℚ × List ℚ) :
    (mixInput s inp).length = s.length := by
  simp [mixInput, addCh1_length, addCh0_length]

theorem mixInput_getD (s : List Frame) (inp : List ℚ × List ℚ)
    (h1 : inp.1.length = s.length) (h2 : inp.2.length = s.length)
    (i : Nat) (hi : i < s.length) :
    (mixInput s inp).getD i (0, 0) =
      ((s.getD i (0, 0)).1 + inp.1.getD i 0, (s.getD i (0, 0)).2 + inp.2.getD i 0) := by
  rw [mixInput, addCh1_getD _ _ (by simp [addCh0_length, h2]) i
    (by simpa [addCh0_length] using hi)]
  rw [addCh0_getD _ _ h1 i hi]

theorem mixFold_getD :
    ∀ (inputs : List (List ℚ × List ℚ)) (s : List Frame),
      (∀ inp ∈ inputs, inp.1.length = s.length ∧ inp.2.length = s.length) →
      ∀ (i : Nat), i < s.length →
      (inputs.foldl mixInput s).getD i (0, 0) =
        ((s.getD i (0, 0)).1 + (inputs.map (fun inp => inp.1.getD i 0)).sum,
         (s.getD i (0, 0)).2 + (inputs.map (fun inp => inp.2.getD i 0)).sum)
  | [], s, h, i, hi => by simp
  | inp :: rest, s, h, i, hi => by
      have hlen1 : inp.1.length = s.length := (h inp (by simp)).1
      have hlen2 : inp.2.length = s.length := (h inp (by simp)).2
      have hrest : ∀ p ∈ rest, p.1.length = (mixInput s inp).length ∧
          p.2.length = (mixInput s inp).length := by
        intro p hp
        rw [mixInput_length]
        exact h p (by simp [hp])
      have ih := mixFold_getD rest (mixInput s inp) hrest i
        (by rwa [mixInput_length])
      rw [List.foldl_cons, ih, mixInput_getD s inp hlen1 hlen2 i hi]
      simp [add_assoc]

theorem mixFold_length :
    ∀ (inputs : List (List ℚ × List ℚ)) (s : List Frame),
      (inputs.foldl mixInput s).length = s.length
  | [], s => rfl
  | inp :: rest, s => by
      rw [List.foldl_cons, mixFold_length rest (mixInput s inp), mixInput_length]

theorem pushAll_data : ∀ (fs : List Frame) (r : OutRing), r.data.length ≤ r.cap →
    pushAll r fs = ⟨r.data ++ fs.take (r.cap - r.data.length), r.cap⟩
  | [], r, h => by simp [pushAll]
  | f :: fs, r, h => by
      have hstep : pushAll r (f :: fs) = pushAll ((r.push f).1) fs := by
        simp [pushAll]
      by_cases hlt : r.data.length < r.cap
      · have hr' : (r.push f).1 = ⟨r.data ++ [f], r.cap⟩ := by
          simp [OutRing.push, hlt]
        have ih := pushAll_data fs ⟨r.data ++ [f], r.cap⟩ (by simp; omega)
        rw [hstep, hr', ih]
        simp only [OutRing.mk.injEq, and_true]
        have hm : r.cap - r.data.length = (r.cap - (r.data.length + 1)) + 1 := by omega
        rw [hm, List.take_succ_cons]
        simp
      · have heq : r.data.length = r.cap := by omega
        have hr' : (r.push f).1 = r := by
          simp [OutRing.push, hlt]
        have ih := pushAll_data fs r h
        rw [hstep, hr', ih]
        simp [heq]

theorem pushCount_foldl : ∀ (fs : List Frame) (r : OutRing) (c : Nat),
    r.data.length ≤ r.cap →
    fs.foldl pushCount (r, c) =
      (pushAll r fs, c + (fs.length - (r.cap - r.data.length)))
  | [], r, c, h => by simp [pushAll]
  | f :: fs, r, c, h => by
      by_cases hlt : r.data.length < r.cap
      · have hstep : pushCount (r, c) f = (⟨r.data ++ [f], r.cap⟩, c) := by
          simp [pushCount, OutRing.push, hlt]
        have ih := pushCount_foldl fs ⟨r.data ++ [f], r.cap⟩ c (by simp; omega)
        rw [List.foldl_cons, hstep, ih]
        have hps : pushAll r (f :: fs) = pushAll ⟨r.data ++ [f], r.cap⟩ fs := by
          simp [pushAll, OutRing.push, hlt]
        rw [← hps]
        simp only [Prod.mk.injEq, true_and, List.length_cons, List.length_append,
          List.length_nil]
        omega
      · have heq : r.data.length = r.cap := by omega
        have hstep : pushCount (r, c) f = (r, c + 1) := by
          simp [pushCount, OutRing.push, hlt]
        have ih := pushCount_foldl fs r (c + 1) h
        rw [List.foldl_cons, hstep, ih]
        have hps : pushAll r (f :: fs) = pushAll r fs := by
          simp [pushAll, OutRing.push, hlt]
        rw [← hps]
        simp only [Prod.mk.injEq, true_and, List.length_cons]
        omega

/-- C2 (amended): every graph tick, `OutputNode::process` fills a
`Buffer::LEN`-frame scratch with equilibrium and adds every incoming
edge's two channel buffers in sample-wise, so frame `i` is the exact
(rational-valued) sum of the edges' `i`-th samples; the `B` frames are
then pushed into the output ring in order until it is full — frames a
full ring refuses are silently dropped, and no overflow counter exists
(the node's entire retained state is the ring). -/
theorem c2_output_mix_amended :
    (∀ (inputs : List (List ℚ × List ℚ)),
      (∀ inp ∈ inputs, inp.1.length = bufferLen ∧ inp.2.length = bufferLen) →
      (mixInputs inputs).length = bufferLen ∧
      ∀ (i : Nat), i < bufferLen →
      (mixInputs inputs).getD i (0, 0) =
        ((inputs.map (fun inp => inp.1.getD i 0)).sum,
         (inputs.map (fun inp => inp.2.getD i 0)).sum)) ∧
    (∀ (inputs : List (List ℚ × List ℚ)) (r : OutRing), r.data.length ≤ r.cap →
      outputProcess inputs r =
        ⟨r.data ++ (mixInputs inputs).take (r.cap - r.data.length), r.cap⟩) := by
  constructor
  · intro inputs h
    have hs : (List.replicate bufferLen ((0 : ℚ), (0 : ℚ))).length = bufferLen := by
      simp
    constructor
    · rw [mixInputs, mixFold_length, hs]
    · intro i hi
      have hgd : (List.replicate bufferLen ((0 : ℚ), (0 : ℚ))).getD i (0, 0) = (0, 0) := by
        rw [List.getD_eq_getElem?_getD, List.getElem?_replicate]
        simp [hi]
      rw [mixInputs, mixFold_getD inputs _ (fun inp hip => by
          rw [hs]
          exact h inp hip) i (by rwa [hs]), hgd]
      simp
  · intro inputs r h
    rw [outputProcess, pushAll_data _ r h]

/-- C2 (witness): two edges with constant samples (1,2) and (3,5) mix to
frame (4,7); pushing into an empty 8192-ring keeps all 64 frames. -/
theorem c2_output_mix_witness :
    (mixInputs [(List.replicate 64 (1 : ℚ), List.replicate 64 (2 : ℚ)),
                (List.replicate 64 (3 : ℚ), List.replicate 64 (5 : ℚ))]).getD 0 (0, 0) =
      (4, 7) ∧
    outputProcess [] ⟨[], 8192⟩ =
      ⟨List.replicate 64 ((0 : ℚ), (0 : ℚ)), 8192⟩ := by
  constructor
  · have h := (c2_output_mix_amended.1
      [(List.replicate 64 (1 : ℚ), List.replicate 64 (2 : ℚ)),
       (List.replicate 64 (3 : ℚ), List.replicate 64 (5 : ℚ))]
      (by simp [bufferLen])).2 0 (by simp [bufferLen])
    rw [h]
    norm_num [List.getD_eq_getElem?_getD, List.getElem?_replicate]
  · have h := c2_output_mix_amended.2 [] ⟨[], 8192⟩ (by simp)
    rw [h]
    have hmix : mixInputs [] = List.replicate 64 ((0 : ℚ), (0 : ℚ)) := rfl
    simp [hmix]

/-- C2 (counterexample): two ticks that the spec's posited overflow
counter must distinguish (64 refused frames vs 32 refused frames, per the
spec-modelled `outputProcessSpec`) leave the output node in identical
states — the code discards `push`'s return value, keeps only the ring,
and increments nothing. -/
theorem c2_overflow_counter_counterexample :
    outputProcess [] ⟨List.replicate 8192 ((0 : ℚ), (0 : ℚ)), 8192⟩ =
      ⟨List.replicate 8192 ((0 : ℚ), (0 : ℚ)), 8192⟩ ∧
    outputProcess [] ⟨List.replicate 8160 ((0 : ℚ), (0 : ℚ)), 8192⟩ =
      ⟨List.replicate 8192 ((0 : ℚ), (0 : ℚ)), 8192⟩ ∧
    (outputProcessSpec [] ⟨List.replicate 8192 ((0 : ℚ), (0 : ℚ)), 8192⟩).2 = 64 ∧
    (outputProcessSpec [] ⟨List.replicate 8160 ((0 : ℚ), (0 : ℚ)), 8192⟩).2 = 32 := by
  have hmix : mixInputs [] = List.replicate 64 ((0 : ℚ), (0 : ℚ)) := rfl
  refine ⟨?_, ?_, ?_, ?_⟩
  · rw [outputProcess, hmix, pushAll_data _ _ (by simp only [List.length_replicate]; omega)]
    simp only [List.length_replicate, Nat.sub_self, List.take_zero, List.append_nil]
  · rw [outputProcess, hmix, pushAll_data _ _ (by simp only [List.length_replicate]; omega)]
    simp only [OutRing.mk.injEq, and_true, List.length_replicate]
    rw [show (8192 : Nat) - 8160 = 32 from by norm_num, List.take_replicate]
    rw [show min 32 64 = 32 from by norm_num]
    rw [← List.replicate_add]
  · rw [outputProcessSpec, hmix, pushCount_foldl _ _ _ (by simp only [List.length_replicate]; omega)]
    simp only [List.length_replicate]
  · rw [outputProcessSpec, hmix, pushCount_foldl _ _ _ (by simp only [List.length_replicate]; omega)]
    simp only [List.length_replicate]


theorem length_filter_split {α : Type _} (l : List α) (p : α → Bool) :
    (l.filter p).length + (l.filter (fun a => !(p a))).length = l.length := by
  induction l with
  | nil => simp
  | cons a t ih =>
    by_cases h : p a <;> simp only [List.filter_cons, h] <;> simp <;> omega

theorem length_filter_contains (len : Nat) (last : List Nat) (hnd : last.Nodup)
    (hmem : ∀ x ∈ last, x < len) :
    ((List.range len).filter (fun el => last.contains el)).length = last.length := by
  have hperm : List.Perm
      ((List.range len).filter (fun el => last.contains el)) last := by
    rw [List.perm_ext_iff_of_nodup (List.Nodup.filter _ (List.nodup_range len)) hnd]
    intro a
    simp only [List.mem_filter, List.mem_range, List.contains, List.elem_eq_mem,
      decide_eq_true_eq]
    exact ⟨fun h => h.2, fun h => ⟨hmem a h, h⟩⟩
  exact hperm.length_eq

/-- C3 (amended): for `n > 0`, distinct recent positions all below `n`
with `|last| ≤ n`, and every draw `pick` with `0 ≤ pick < max` — strictly
below the inclusive upper end `max = (n-|last|) + (1 - 2^-|last|)` —
`select_next_random` returns a position below `n` (every index into
`last` in bounds); when `last` is empty the result is `⌊pick⌋`, so each
position `i < n` is selected exactly by the picks in `[i, i+1)`. -/
theorem c3_select_next_random_amended (len : Nat) (last : List Nat) (pick : ℚ)
    (hlen : 0 < len) (hsub : last.length ≤ len) (hnd : last.Nodup)
    (hmem : ∀ x ∈ last, x < len) (h0 : 0 ≤ pick)
    (hmax : pick < selectMax len last) :
    ∃ i, selectNextRandom len last pick = some i ∧ i < len ∧
      (last = [] → i = pick.floor.toNat) := by
  have hlen0 : len ≠ 0 := by omega
  have hnotlt : ¬ len < last.length := by omega
  rw [selectNextRandom, if_neg hlen0, if_neg hnotlt]
  by_cases hp : pick < ((len - last.length : Nat) : ℚ)
  · rw [if_pos hp]
    have hfl0 : 0 ≤ pick.floor := Rat.le_floor.mpr (by exact_mod_cast h0)
    have hflt : pick.floor < ((len - last.length : Nat) : ℤ) := by
      by_contra hc
      push_neg at hc
      have hle := Rat.le_floor.mp hc
      have : ((len - last.length : Nat) : ℚ) ≤ pick := by exact_mod_cast hle
      linarith
    have hidx : pick.floor.toNat < len - last.length :=
      (Int.toNat_lt hfl0).mpr hflt
    have hcount :
        ((List.range len).filter (fun el => !last.contains el)).length =
          len - last.length := by
      have hsplit := length_filter_split (List.range len)
        (fun el => last.contains el)
      rw [length_filter_contains len last hnd hmem, List.length_range] at hsplit
      omega
    have hlt2 : pick.floor.toNat <
        ((List.range len).filter (fun el => !last.contains el)).length := by
      omega
    obtain ⟨v, hv⟩ : ∃ v,
        ((List.range len).filter (fun el => !last.contains el))[pick.floor.toNat]? =
          some v :=
      ⟨_, List.getElem?_eq_getElem hlt2⟩
    refine ⟨v, by rw [hv], ?_, ?_⟩
    · obtain ⟨hb, hval⟩ := List.getElem?_eq_some_iff.mp hv
      have hmem2 : v ∈ (List.range len).filter (fun el => !last.contains el) := by
        rw [← hval]
        exact List.getElem_mem hb
      have := List.mem_filter.mp hmem2
      simpa using List.mem_range.mp this.1
    · intro hnil
      subst hnil
      have hfe : (List.range len).filter
          (fun el => !(([] : List Nat).contains el)) = List.range len := by
        simp
      rw [hfe] at hv
      have hb2 : pick.floor.toNat < len := by
        simpa using hidx
      rw [List.getElem?_range hb2] at hv
      exact (Option.some.injEq _ _ ▸ hv).symm
  · rw [if_neg hp]
    have hk1 : 1 ≤ last.length := by
      by_contra hk
      have hk0 : last.length = 0 := by omega
      rw [selectMax, hk0] at hmax
      simp at hmax
      exact hp (by simpa [hk0] using hmax)
    have hxpos : 1 / (2 : ℚ) ^ last.length <
        1 - (pick - ((len - last.length : Nat) : ℚ)) := by
      rw [selectMax] at hmax
      linarith
    have hxinv : (1 - (pick - ((len - last.length : Nat) : ℚ)))⁻¹ <
        (2 : ℚ) ^ last.length := by
      have h2pos : (0 : ℚ) < 1 / 2 ^ last.length := by positivity
      have := inv_strictAnti₀ h2pos hxpos
      rwa [one_div, inv_inv] at this
    have hxnn : (0 : ℚ) ≤ (1 - (pick - ((len - last.length : Nat) : ℚ)))⁻¹ := by
      have h2pos : (0 : ℚ) < 1 / 2 ^ last.length := by positivity
      have hxp : (0 : ℚ) < 1 - (pick - ((len - last.length : Nat) : ℚ)) :=
        lt_trans h2pos hxpos
      positivity
    have hfloor : ⌊(1 - (pick - ((len - last.length : Nat) : ℚ)))⁻¹⌋₊ <
        2 ^ last.length := by
      rw [Nat.floor_lt hxnn]
      exact_mod_cast hxinv
    have hidx : neglog2floor (1 - (pick - ((len - last.length : Nat) : ℚ))) <
        last.length := by
      rw [neglog2floor]
      rcases Nat.eq_zero_or_pos ⌊(1 - (pick - ((len - last.length : Nat) : ℚ)))⁻¹⌋₊ with
        h | h
      · rw [h]
        simpa using hk1
      · exact Nat.log_lt_of_lt_pow (by omega) hfloor
    refine ⟨last.get ⟨_, hidx⟩, ?_, ?_, ?_⟩
    · rw [List.getElem?_eq_getElem hidx]
      rfl
    · exact hmem _ (List.getElem_mem hidx)
    · intro hnil
      subst hnil
      simp at hk1

/-- C3 (witness): `n = 2`, `last = [0]`, `pick = 3/4 < max = 3/2`: the
not-recently-played position 1 is returned. -/
theorem c3_select_next_random_witness :
    ∃ i, selectNextRandom 2 [0] (3 / 4) = some i ∧ i < 2 ∧
      ([0] = ([] : List Nat) → i = (3 / 4 : ℚ).floor.toNat) :=
  c3_select_next_random_amended 2 [0] (3 / 4) (by norm_num) (by norm_num)
    (by simp) (by simp) (by norm_num) (by norm_num [selectMax])

/-- C3 (counterexample): the inclusive upper endpoint `pick = max` is a
value the draw can produce; at `n = 1`, `last = []` it makes the
history-index computation yield `0` and `last[0]` indexes the empty
history — a panic (`none`), not a position below `n`. -/
theorem c3_pick_max_counterexample :
    selectNextRandom 1 [] 1 = none ∧ selectMax 1 [] = 1 := by
  constructor
  · rw [selectNextRandom]
    norm_num [neglog2floor]
  · rw [selectMax]
    norm_num

end R2dj
